import Mathlib

/-!
Shallow embedding of `qualifier/qualifier.py` (tile validation and
rearrangement) together with theorems about its behaviour.

Python integers are modelled by `Int`.  Python's `%` is `Int.fmod` and `//`
is `Int.fdiv` (both round toward negative infinity, as Python does).  A
Python function that can raise an exception which is not caught inside the
function is modelled with `Option`, `none` standing for the uncaught
exception.
-/

namespace Qualifier

/-- Model of `set(ordering) == set(range(len(ordering)))` (qualifier.py
line 22): the two sets are equal iff each is contained in the other. -/
def setEqRange (ordering : List Int) : Bool :=
  ordering.all (fun x => decide (x ∈ (List.range ordering.length).map Int.ofNat)) &&
  ((List.range ordering.length).map Int.ofNat).all (fun x => decide (x ∈ ordering))

/-- Embedding of `valid_input` (qualifier.py lines 4-25).  The `try` block
runs four `assert` statements in order; `except AssertionError` turns a
failed assertion into `return False`, which `some false` models.  Evaluating
`image_size[i] % 0` raises `ZeroDivisionError`, which the `except` clause
does NOT catch, so the function itself raises: `none` models that. -/
def valid_input (image_size : Int × Int) (tile_size : Int × Int)
    (ordering : List Int) : Option Bool :=
  if tile_size.1 = 0 then none
  else if ¬ (image_size.1.fmod tile_size.1 = 0) then some false
  else if tile_size.2 = 0 then none
  else if ¬ (image_size.2.fmod tile_size.2 = 0) then some false
  else
    let size_a := image_size.1.fdiv tile_size.1
    let size_b := image_size.2.fdiv tile_size.2
    if ¬ (size_a * size_b = (ordering.length : Int)) then some false
    else if ¬ (setEqRange ordering = true) then some false
    else some true

/-- Model of a PIL image: dimensions, colour mode and a total pixel map.
Only pixels with coordinates below `width`/`height` are meaningful. -/
structure PILImage where
  width : Nat
  height : Nat
  mode : String
  pixel : Nat → Nat → Nat

/-- `Image.new(mode, (w, h))`: a blank (all-zero) image. -/
def imageNew (image_mode : String) (w h : Nat) : PILImage :=
  { width := w, height := h, mode := image_mode, pixel := fun _ _ => 0 }

/-- `img.crop((l, u, r, b))`: the rectangle `[l, r) × [u, b)` of `img`;
pixels taken from outside the source image are 0 (PIL zero-fills them). -/
def crop (img : PILImage) (l u r b : Int) : PILImage :=
  { width := (r - l).toNat, height := (b - u).toNat, mode := img.mode,
    pixel := fun i j =>
      let X : Int := l + i
      let Y : Int := u + j
      if 0 ≤ X ∧ X < img.width ∧ 0 ≤ Y ∧ Y < img.height then
        img.pixel X.toNat Y.toNat
      else 0 }

/-- `base.paste(tile, (x, y))`: overwrite the rectangle of `tile`'s size at
offset `(x, y)` with `tile`'s pixels; every other pixel is kept. -/
def paste (base tile : PILImage) (x y : Int) : PILImage :=
  { base with pixel := fun i j =>
      let di : Int := (i : Int) - x
      let dj : Int := (j : Int) - y
      if 0 ≤ di ∧ di < tile.width ∧ 0 ≤ dj ∧ dj < tile.height then
        tile.pixel di.toNat dj.toNat
      else base.pixel i j }

/-- Python `range(start, stop, step)` as a list: `max 0` of
`⌈(stop - start) / step⌉` elements `start + step * i`.  (`step = 0` raises
in Python; the code under study never produces that call.) -/
def pyRange (start stop step : Int) : List Int :=
  if 0 < step then
    (List.range ((stop - start + step - 1).fdiv step).toNat).map
      (fun i : Nat => start + step * (i : Int))
  else if step < 0 then
    (List.range ((start - stop - step - 1).fdiv (-step)).toNat).map
      (fun i : Nat => start + step * (i : Int))
  else []

/-- Embedding of `split_into_tiles` (qualifier.py lines 61-68): the list
comprehension iterates `y` over `range(0, height, dy)` in the outer loop
and `x` over `range(0, width, dx)` in the inner loop, cropping the box
`(x, y, x + dx, y + dy)` for each position. -/
def split_into_tiles (img : PILImage) (dx dy : Int) : List PILImage :=
  (pyRange 0 img.height dy).flatMap (fun y =>
    (pyRange 0 img.width dx).map (fun x => crop img x y (x + dx) (y + dy)))

/-- Embedding of `combine_tiles` (qualifier.py lines 71-79): start from a
blank image of size `(dx * width_count, dy * height_count)` in the given
mode, then paste tile `i` at
`((i % width_count) * dx, (i // width_count) * dy)`. -/
def combine_tiles (tiles : List PILImage) (width_count height_count dx dy : Int)
    (image_mode : String) : PILImage :=
  (tiles.enum).foldl
    (fun img it =>
      paste img it.2 (((it.1 : Int).fmod width_count) * dx)
        (((it.1 : Int).fdiv width_count) * dy))
    (imageNew image_mode (dx * width_count).toNat (dy * height_count).toNat)

/-- Python list indexing `l[i]`: a negative index counts from the end; an
index still out of range raises `IndexError`, modelled by `none`. -/
def pyIndex (l : List α) (i : Int) : Option α :=
  let j : Int := if i < 0 then i + l.length else i
  if 0 ≤ j then l.get? j.toNat else none

/-- The comprehension `[tiles[index] for index in ordering]`
(qualifier.py line 51); `none` if any lookup raises `IndexError`. -/
def sorted_tiles (tiles : List PILImage) (ordering : List Int) :
    Option (List PILImage) :=
  ordering.mapM (pyIndex tiles)

/-- Outcome of `rearrange_tiles`: a successfully built image (which the
source then saves to `out_path`), a raised `ValueError` carrying its
message, or a different exception propagating out.  In both error cases
execution never reaches `new_img.save(out_path)`, so no output file is
produced or overwritten. -/
inductive RearrangeResult where
  | ok : PILImage → RearrangeResult
  | invalidArrangement : String → RearrangeResult
  | uncaught : RearrangeResult

/-- Embedding of `rearrange_tiles` (qualifier.py lines 28-57), with the
image already opened (`img` carries the size and mode the source reads
from the file). -/
def rearrange_tiles (img : PILImage) (tile_size : Int × Int)
    (ordering : List Int) : RearrangeResult :=
  match valid_input ((img.width : Int), (img.height : Int)) tile_size ordering with
  | none => RearrangeResult.uncaught
  | some false =>
      RearrangeResult.invalidArrangement
        "The tile size or ordering are not valid for the given image"
  | some true =>
      let dx := tile_size.1
      let dy := tile_size.2
      let tiles := split_into_tiles img dx dy
      match sorted_tiles tiles ordering with
      | none => RearrangeResult.uncaught
      | some ts =>
          let width_count := (img.width : Int).fdiv dx
          let height_count := (img.height : Int).fdiv dy
          RearrangeResult.ok
            (combine_tiles ts width_count height_count dx dy img.mode)

/-- Pixel-identical images: same size, same mode, same pixel values inside
the image rectangle. -/
def ImgEq (a b : PILImage) : Prop :=
  a.width = b.width ∧ a.height = b.height ∧ a.mode = b.mode ∧
  ∀ i j, i < a.width → j < a.height → a.pixel i j = b.pixel i j

/-- A concrete 4×4 test image with pairwise distinct pixel values. -/
def testImg : PILImage :=
  { width := 4, height := 4, mode := "RGB", pixel := fun i j => i + 4 * j + 1 }

/-! ### Lemmas about `valid_input` -/

/-- Normal form of `valid_input` when no division by zero occurs: a single
boolean conjunction of the four assertions. -/
lemma valid_input_eq (w h tw th : Int) (ordering : List Int)
    (htw : tw ≠ 0) (hth : th ≠ 0) :
    valid_input (w, h) (tw, th) ordering =
      some (decide (w.fmod tw = 0) && (decide (h.fmod th = 0) &&
        (decide ((w.fdiv tw) * (h.fdiv th) = (ordering.length : Int)) &&
          setEqRange ordering))) := by
  by_cases h1 : w.fmod tw = 0 <;> by_cases h2 : h.fmod th = 0 <;>
    by_cases h3 : (w.fdiv tw) * (h.fdiv th) = (ordering.length : Int) <;>
    by_cases h4 : setEqRange ordering = true <;>
    simp [valid_input, htw, hth, h1, h2, h3, h4]

/-- With both tile dimensions nonzero, no division by zero happens, so
`valid_input` returns a boolean. -/
lemma valid_input_total (w h tw th : Int) (ordering : List Int)
    (htw : tw ≠ 0) (hth : th ≠ 0) :
    valid_input (w, h) (tw, th) ordering ≠ none := by
  rw [valid_input_eq w h tw th ordering htw hth]
  simp

/-- The set-equality test of line 22 succeeds exactly when the ordering is a
permutation of `[0, …, len-1]`. -/
lemma setEqRange_iff (l : List Int) :
    setEqRange l = true ↔ l.Perm ((List.range l.length).map Int.ofNat) := by
  unfold setEqRange
  rw [Bool.and_eq_true, List.all_eq_true, List.all_eq_true]
  constructor
  · rintro ⟨-, hsup⟩
    have hsub : (List.range l.length).map Int.ofNat ⊆ l := by
      intro x hx
      simpa using hsup x hx
    have hnd : ((List.range l.length).map Int.ofNat).Nodup :=
      (List.nodup_range _).map (fun _ _ hab => Int.ofNat_inj.mp hab)
    have hsp : List.Subperm ((List.range l.length).map Int.ofNat) l :=
      List.subperm_of_subset hnd hsub
    exact (hsp.perm_of_length_le (by simp)).symm
  · intro hp
    refine ⟨fun x hx => ?_, fun x hx => ?_⟩
    · simpa using hp.subset hx
    · simpa using hp.symm.subset hx

/-- Characterization of a `True` return of `valid_input` for positive tile
dimensions, with Python's floor `%`/`//` rewritten to divisibility and
mathematical exact division. -/
lemma valid_input_eq_true_iff (w h tw th : Int) (ordering : List Int)
    (htw : 0 < tw) (hth : 0 < th) :
    valid_input (w, h) (tw, th) ordering = some true ↔
      (tw ∣ w ∧ th ∣ h ∧ ((ordering.length : Int) = (w / tw) * (h / th)) ∧
        ordering.Perm ((List.range ordering.length).map Int.ofNat)) := by
  rw [valid_input_eq w h tw th ordering (ne_of_gt htw) (ne_of_gt hth)]
  rw [Int.fmod_eq_emod _ (le_of_lt htw), Int.fmod_eq_emod _ (le_of_lt hth),
    Int.fdiv_eq_ediv _ (le_of_lt htw), Int.fdiv_eq_ediv _ (le_of_lt hth)]
  simp only [Option.some_inj, Bool.and_eq_true, decide_eq_true_eq, setEqRange_iff]
  constructor
  · rintro ⟨hm1, hm2, hlen, hperm⟩
    exact ⟨Int.dvd_of_emod_eq_zero hm1, Int.dvd_of_emod_eq_zero hm2, hlen.symm, hperm⟩
  · rintro ⟨hd1, hd2, hlen, hperm⟩
    exact ⟨Int.emod_eq_zero_of_dvd hd1, Int.emod_eq_zero_of_dvd hd2, hlen.symm, hperm⟩

/-- C1: for positive tile dimensions (the spec's input domain),
`valid_input` returns `True` exactly when tile width divides image width,
tile height divides image height, the ordering has exactly
`(width/tile_width) * (height/tile_height)` entries and is a permutation of
`{0, …, len-1}` (each value exactly once); on any violation — length
mismatch, duplicate, out-of-range or missing value, non-divisibility — it
returns `False`. -/
theorem valid_input_spec (w h tw th : Int) (ordering : List Int)
    (htw : 0 < tw) (hth : 0 < th) :
    (valid_input (w, h) (tw, th) ordering = some true ↔
      (tw ∣ w ∧ th ∣ h ∧ ((ordering.length : Int) = (w / tw) * (h / th)) ∧
        ordering.Perm ((List.range ordering.length).map Int.ofNat))) ∧
    (valid_input (w, h) (tw, th) ordering = some false ↔
      ¬(tw ∣ w ∧ th ∣ h ∧ ((ordering.length : Int) = (w / tw) * (h / th)) ∧
        ordering.Perm ((List.range ordering.length).map Int.ofNat))) := by
  have h1 := valid_input_eq_true_iff w h tw th ordering htw hth
  have h2 := valid_input_total w h tw th ordering (ne_of_gt htw) (ne_of_gt hth)
  refine ⟨h1, ?_⟩
  rw [← h1]
  rcases ho : valid_input (w, h) (tw, th) ordering with _ | b
  · exact absurd ho h2
  · cases b <;> simp

/-- Witness for C1: the canonical valid 4×4 input with 2×2 tiles. -/
theorem valid_input_spec_witness :
    valid_input (4, 4) (2, 2) [0, 1, 2, 3] = some true :=
  ((valid_input_spec 4 4 2 2 [0, 1, 2, 3] (by decide) (by decide)).1).mpr
    ⟨⟨2, rfl⟩, ⟨2, rfl⟩, by decide, by decide⟩

/-- C3 counterexample: with tile width 0, `valid_input` raises an uncaught
`ZeroDivisionError` (`none`) instead of returning `False`. -/
theorem valid_input_zero_tile_raises :
    valid_input (4, 4) (0, 2) ([] : List Int) = none := by decide

/-- C3 (amended): `valid_input` never raises when both tile dimensions are
nonzero (all violations folded into `False`), but the `except
AssertionError` clause does not catch `ZeroDivisionError`: with tile width
0 it always raises, and with tile height 0 it raises whenever tile width
divides image width (and returns `False` otherwise, the first assertion
failing before the division by zero is reached). -/
theorem valid_input_raise_behaviour (w h tw th : Int) (ordering : List Int) :
    (tw ≠ 0 → th ≠ 0 → valid_input (w, h) (tw, th) ordering ≠ none) ∧
    valid_input (w, h) (0, th) ordering = none ∧
    (tw ≠ 0 → tw ∣ w → valid_input (w, h) (tw, 0) ordering = none) ∧
    (tw ≠ 0 → ¬ tw ∣ w → valid_input (w, h) (tw, 0) ordering = some false) := by
  refine ⟨fun htw hth => valid_input_total w h tw th ordering htw hth, ?_, ?_, ?_⟩
  · simp [valid_input]
  · intro htw hd
    have hm : w.fmod tw = 0 := by
      rcases hd with ⟨k, rfl⟩
      rw [Int.fmod_def, Int.mul_fdiv_cancel_left _ htw, mul_comm, sub_self]
    simp [valid_input, htw, hm]
  · intro htw hd
    have hm : ¬ w.fmod tw = 0 := by
      intro hm0
      refine hd ⟨w.fdiv tw, ?_⟩
      have hdef := Int.fmod_def w tw
      rw [hm0] at hdef
      linarith
    simp [valid_input, htw, hm]

/-- Witness for C3 (amended): a 4×4 image, tile size (2, 0); the divisible
width reaches the second modulo and the division by zero raises. -/
theorem valid_input_raise_behaviour_witness :
    valid_input (4, 4) (2, 0) ([] : List Int) = none :=
  (valid_input_raise_behaviour 4 4 2 0 []).2.2.1 (by decide) ⟨2, rfl⟩

/-- C9 counterexample: a degenerate image size is accepted when the
ordering is empty — `(0, 0)` with 2×2 tiles and `[]` returns `True`. -/
theorem valid_input_degenerate_accepts_empty :
    valid_input (0, 0) (2, 2) ([] : List Int) = some true := by decide

/-- C9 (amended): for an image size with a zero dimension and positive tile
dimensions, `valid_input` returns `False` for every NONEMPTY ordering (the
grid has zero tiles, so the count assertion fails), while for the empty
ordering it returns `True` exactly when both divisibility assertions pass
(the zero-tile grid then matches the zero-length ordering). -/
theorem valid_input_degenerate (w h tw th : Int) (ordering : List Int)
    (hz : w = 0 ∨ h = 0) (htw : 0 < tw) (hth : 0 < th) :
    (ordering ≠ [] → valid_input (w, h) (tw, th) ordering = some false) ∧
    (valid_input (w, h) (tw, th) [] = some true ↔ tw ∣ w ∧ th ∣ h) := by
  constructor
  · intro hne
    have h1 := valid_input_eq_true_iff w h tw th ordering htw hth
    have h2 := valid_input_total w h tw th ordering (ne_of_gt htw) (ne_of_gt hth)
    rcases ho : valid_input (w, h) (tw, th) ordering with _ | b
    · exact absurd ho h2
    · cases b
      · rfl
      · exfalso
        obtain ⟨-, -, hlen, -⟩ := h1.mp ho
        have hLz : (ordering.length : Int) = 0 := by
          rcases hz with rfl | rfl <;> simpa using hlen
        exact hne (List.length_eq_zero.mp (by exact_mod_cast hLz))
  · rw [valid_input_eq_true_iff w h tw th [] htw hth]
    have hprod : (w / tw) * (h / th) = 0 := by
      rcases hz with rfl | rfl
      · rw [Int.zero_ediv, zero_mul]
      · rw [Int.zero_ediv, mul_zero]
    constructor
    · rintro ⟨h1, h2, -, -⟩
      exact ⟨h1, h2⟩
    · rintro ⟨h1, h2⟩
      refine ⟨h1, h2, by simp [hprod], by simp⟩

/-- Witness for C9 (amended): image size (0, 4), tiles 2×2 — the ordering
[0] is rejected, while the empty ordering is accepted since 2 divides both
0 and 4. -/
theorem valid_input_degenerate_witness :
    valid_input (0, 4) (2, 2) [0] = some false ∧
      valid_input (0, 4) (2, 2) [] = some true :=
  ⟨(valid_input_degenerate 0 4 2 2 [0] (Or.inl rfl) (by decide) (by decide)).1
      (by decide),
    (valid_input_degenerate 0 4 2 2 [0] (Or.inl rfl) (by decide) (by decide)).2.mpr
      ⟨⟨0, rfl⟩, ⟨2, rfl⟩⟩⟩

/-- C10: `valid_input` accepts a negative tile size: image 4×4, tiles
(-2, -2), ordering [0, 1, 2, 3] — Python's floor `%` gives `4 % -2 == 0`
and `(4 // -2) * (4 // -2) == 4`, so every assertion passes. -/
theorem valid_input_accepts_negative_tiles :
    valid_input (4, 4) (-2, -2) [0, 1, 2, 3] = some true := by decide

/-- C2: `rearrange_tiles` raises `ValueError` with exactly the message
"The tile size or ordering are not valid for the given image" iff
`valid_input` returns `False` on the opened image's size, and in that case
the run produces no output image (execution never reaches
`new_img.save(out_path)`). -/
theorem rearrange_tiles_invalid_iff (img : PILImage) (tile_size : Int × Int)
    (ordering : List Int) :
    (rearrange_tiles img tile_size ordering =
        RearrangeResult.invalidArrangement
          "The tile size or ordering are not valid for the given image" ↔
      valid_input ((img.width : Int), (img.height : Int)) tile_size ordering =
        some false) ∧
    (valid_input ((img.width : Int), (img.height : Int)) tile_size ordering =
        some false →
      ∀ out, rearrange_tiles img tile_size ordering ≠ RearrangeResult.ok out) := by
  rcases ho : valid_input ((img.width : Int), (img.height : Int)) tile_size ordering
    with _ | b
  · simp [rearrange_tiles, ho]
  · cases b
    · simp [rearrange_tiles, ho]
    · rcases hs : sorted_tiles (split_into_tiles img tile_size.1 tile_size.2) ordering
        with _ | ts
      · simp [rearrange_tiles, ho, hs]
      · simp [rearrange_tiles, ho, hs]

/-- Witness for C2: `testImg` is 4×4 and tile size (2, 3) does not divide
its height, so the exact `ValueError` is raised. -/
theorem rearrange_tiles_invalid_iff_witness :
    rearrange_tiles testImg (2, 3) [0, 1, 2, 3] =
      RearrangeResult.invalidArrangement
        "The tile size or ordering are not valid for the given image" :=
  (rearrange_tiles_invalid_iff testImg (2, 3) [0, 1, 2, 3]).1.mpr (by decide)

/-! ### Lemmas about `split_into_tiles` -/

/-- Truncated integer division of a natural cast by a positive divisor is
the natural division. -/
lemma ediv_toNat (H : Nat) (d : Int) (hd : 0 < d) :
    ((H : Int) / d).toNat = H / d.toNat := by
  have h1 : ((H / d.toNat : Nat) : Int) = (H : Int) / ((d.toNat : Nat) : Int) :=
    Int.natCast_div H d.toNat
  rw [Int.toNat_of_nonneg (le_of_lt hd)] at h1
  rw [← h1]
  exact Int.toNat_ofNat _

/-- `range(0, H, d)` for a positive step dividing `H`: the multiples of `d`
below `H`. -/
lemma pyRange_nat (H : Nat) (d : Int) (hd : 0 < d) (hdvd : d ∣ (H : Int)) :
    pyRange 0 (H : Int) d =
      (List.range (((H : Int) / d).toNat)).map (fun i : Nat => d * (i : Int)) := by
  have hd0 : d ≠ 0 := ne_of_gt hd
  obtain ⟨k, hk⟩ := hdvd
  have hkd : (H : Int) / d = k := by rw [hk, Int.mul_ediv_cancel_left _ hd0]
  have hlen : ((H : Int) - 0 + d - 1).fdiv d = k := by
    rw [Int.fdiv_eq_ediv _ (le_of_lt hd)]
    have he : (H : Int) - 0 + d - 1 = (d - 1) + k * d := by rw [hk]; ring
    rw [he, Int.add_mul_ediv_right _ _ hd0,
      Int.ediv_eq_zero_of_lt (by omega) (by omega), zero_add]
  unfold pyRange
  rw [if_pos hd, hlen, hkd]
  apply List.map_congr_left
  intro i _
  ring

/-- Flattening a rectangular nested iteration into a single `range`:
row-major enumeration with `a` inner entries per outer step. -/
lemma range_flatMap_map {α : Type} (a b : Nat) (f : Nat → Nat → α) :
    (List.range b).flatMap (fun r => (List.range a).map (fun c => f r c)) =
      (List.range (b * a)).map (fun k => f (k / a) (k % a)) := by
  induction b with
  | zero => simp
  | succ b ih =>
    rw [List.range_succ, List.flatMap_append, ih, Nat.succ_mul, List.range_add,
      List.map_append]
    simp only [List.flatMap_cons, List.flatMap_nil, List.append_nil, List.map_map]
    congr 1
    apply List.map_congr_left
    intro c hc
    have hca : c < a := List.mem_range.mp hc
    have ha : 0 < a := Nat.pos_of_ne_zero (by omega)
    have h1 : (b * a + c) / a = b + c / a := by
      rw [Nat.mul_comm b a]
      exact Nat.mul_add_div ha b c
    have h2 : (b * a + c) % a = c % a := by
      rw [Nat.mul_comm b a]
      exact Nat.mul_add_mod a b c
    simp [Function.comp, h1, h2, Nat.div_eq_of_lt hca, Nat.mod_eq_of_lt hca]

/-- A tile produced by cropping a `dx × dy` box has width `dx` and height
`dy` (and keeps the source's mode). -/
lemma crop_size (img : PILImage) (l u dx dy : Int) :
    (crop img l u (l + dx) (u + dy)).width = dx.toNat ∧
    (crop img l u (l + dx) (u + dy)).height = dy.toNat ∧
    (crop img l u (l + dx) (u + dy)).mode = img.mode := by
  unfold crop
  refine ⟨?_, ?_, rfl⟩ <;> simp

/-- Closed form of `split_into_tiles` on an exactly divisible image: the
row-major list of crops, tile `k` covering the cell with column `k % cols`
and row `k / cols`. -/
lemma split_into_tiles_eq (img : PILImage) (dx dy : Int)
    (hdx : 0 < dx) (hdy : 0 < dy)
    (hw : dx ∣ (img.width : Int)) (hh : dy ∣ (img.height : Int)) :
    split_into_tiles img dx dy =
      (List.range ((((img.height : Int) / dy).toNat) * (((img.width : Int) / dx).toNat))).map
        (fun k : Nat =>
          crop img (dx * ((k % (((img.width : Int) / dx).toNat) : Nat) : Int))
            (dy * ((k / (((img.width : Int) / dx).toNat) : Nat) : Int))
            (dx * ((k % (((img.width : Int) / dx).toNat) : Nat) : Int) + dx)
            (dy * ((k / (((img.width : Int) / dx).toNat) : Nat) : Int) + dy)) := by
  unfold split_into_tiles
  rw [pyRange_nat img.height dy hdy hh, pyRange_nat img.width dx hdx hw,
    List.flatMap_map]
  simp only [List.map_map, Function.comp]
  exact range_flatMap_map _ _ _

/-- C5: on an image exactly divided by the tile size, `split_into_tiles`
produces `(width/dx) * (height/dy)` tiles in strict row-major order: the
tile at index `r * cols + c` is the crop of the rectangle
`[c*dx, c*dx+dx) × [r*dy, r*dy+dy)`; index 0 is the top-left tile and
indices proceed left-to-right, then top-to-bottom. -/
theorem split_into_tiles_spec (img : PILImage) (dx dy : Int)
    (hdx : 0 < dx) (hdy : 0 < dy)
    (hw : dx ∣ (img.width : Int)) (hh : dy ∣ (img.height : Int)) :
    (split_into_tiles img dx dy).length =
      (img.width / dx.toNat) * (img.height / dy.toNat) ∧
    ∀ r c : Nat, r < img.height / dy.toNat → c < img.width / dx.toNat →
      (split_into_tiles img dx dy).get? (r * (img.width / dx.toNat) + c) =
        some (crop img (dx * c) (dy * r) (dx * c + dx) (dy * r + dy)) := by
  have hcols : (((img.width : Int) / dx).toNat) = img.width / dx.toNat :=
    ediv_toNat img.width dx hdx
  have hrows : (((img.height : Int) / dy).toNat) = img.height / dy.toNat :=
    ediv_toNat img.height dy hdy
  rw [split_into_tiles_eq img dx dy hdx hdy hw hh]
  constructor
  · rw [List.length_map, List.length_range, hcols, hrows, Nat.mul_comm]
  · intro r c hr hc
    rw [hcols, hrows]
    set cols := img.width / dx.toNat with hcolsd
    set rows := img.height / dy.toNat with hrowsd
    have hcolpos : 0 < cols := by omega
    have hidx : r * cols + c < rows * cols := by
      calc r * cols + c < r * cols + cols := by omega
        _ = (r + 1) * cols := by ring
        _ ≤ rows * cols := Nat.mul_le_mul_right cols (by omega)
    rw [List.get?_map, List.get?_range hidx, Option.map_some']
    have h1 : (r * cols + c) % cols = c := by
      rw [Nat.mul_comm r cols]
      rw [Nat.mul_add_mod cols r c]
      exact Nat.mod_eq_of_lt hc
    have h2 : (r * cols + c) / cols = r := by
      rw [Nat.mul_comm r cols]
      rw [Nat.mul_add_div hcolpos r c]
      rw [Nat.div_eq_of_lt hc, Nat.add_zero]
    rw [h1, h2]

/-- Witness for C5: splitting the 4×4 test image into 2×2 tiles; the tile
at row 1, column 0 is the crop of `[0, 2) × [2, 4)`. -/
theorem split_into_tiles_spec_witness :
    (split_into_tiles testImg 2 2).length = 4 ∧
    (split_into_tiles testImg 2 2).get? 2 = some (crop testImg 0 2 2 4) := by
  have hs := split_into_tiles_spec testImg 2 2 (by decide) (by decide)
    ⟨2, rfl⟩ ⟨2, rfl⟩
  refine ⟨hs.1, ?_⟩
  have h2 := hs.2 1 0 (by decide) (by decide)
  simpa using h2

/-! ### Lemmas about the permutation step (line 51) -/

/-- Nonnegative Python indexing is plain list lookup. -/
lemma pyIndex_nonneg {α : Type} (l : List α) (v : Int) (h0 : 0 ≤ v) :
    pyIndex l v = l.get? v.toNat := by
  have hv : ¬ v < 0 := not_lt.mpr h0
  simp [pyIndex, hv, h0]

/-- The comprehension `[tiles[index] for index in ordering]` succeeds when
every index is in bounds, and places `tiles[ordering[i]]` at position `i`. -/
lemma sorted_tiles_get (tiles : List PILImage) (ordering : List Int)
    (hbound : ∀ x ∈ ordering, 0 ≤ x ∧ x < (tiles.length : Int)) :
    ∃ ts, sorted_tiles tiles ordering = some ts ∧ ts.length = ordering.length ∧
      ∀ i : Nat, ∀ v : Int, ordering.get? i = some v →
        ts.get? i = tiles.get? v.toNat := by
  induction ordering with
  | nil => exact ⟨[], rfl, rfl, fun i v hv => by simp at hv⟩
  | cons o os ih =>
    obtain ⟨ho0, holt⟩ := hbound o (List.mem_cons_self _ _)
    obtain ⟨ts, hts, hlen, hget⟩ :=
      ih (fun x hx => hbound x (List.mem_cons_of_mem _ hx))
    have hoidx : pyIndex tiles o = tiles.get? o.toNat := pyIndex_nonneg tiles o ho0
    have hltN : o.toNat < tiles.length := by omega
    obtain ⟨t, ht⟩ : ∃ t, tiles.get? o.toNat = some t :=
      ⟨tiles.get ⟨o.toNat, hltN⟩, List.get?_eq_some.mpr ⟨hltN, rfl⟩⟩
    refine ⟨t :: ts, ?_, by simp [hlen], ?_⟩
    · show (o :: os).mapM (pyIndex tiles) = some (t :: ts)
      rw [List.mapM_cons, hoidx, ht,
        show os.mapM (pyIndex tiles) = some ts from hts]
      rfl
    · intro i v hv
      cases i with
      | zero =>
        simp only [List.get?_cons_zero, Option.some_inj] at hv
        subst hv
        rw [List.get?_cons_zero, ht]
      | succ n =>
        rw [List.get?_cons_succ] at hv ⊢
        exact hget n v hv

/-- C6: when `ordering` is a permutation of the tile indices, the
comprehension `[tiles[index] for index in ordering]` (line 51) succeeds and
builds exactly the list whose entry at output position `i` is
`tiles[ordering[i]]`. -/
theorem sorted_tiles_spec (tiles : List PILImage) (ordering : List Int)
    (hperm : ordering.Perm ((List.range tiles.length).map Int.ofNat)) :
    ∃ ts, sorted_tiles tiles ordering = some ts ∧ ts.length = ordering.length ∧
      ∀ i : Nat, ∀ v : Int, ordering.get? i = some v →
        ts.get? i = tiles.get? v.toNat := by
  apply sorted_tiles_get
  intro x hx
  have hx' := hperm.subset hx
  simp only [List.mem_map, List.mem_range] at hx'
  obtain ⟨m, hm, rfl⟩ := hx'
  exact ⟨Int.ofNat_zero_le m, by rw [Int.ofNat_eq_natCast]; exact_mod_cast hm⟩

/-- Witness for C6: two tiles and the swap ordering `[1, 0]`. -/
theorem sorted_tiles_spec_witness :
    ∃ ts, sorted_tiles [testImg, imageNew "L" 1 1] [1, 0] = some ts ∧
      ts.length = 2 ∧
      ∀ i : Nat, ∀ v : Int, ([1, 0] : List Int).get? i = some v →
        ts.get? i = [testImg, imageNew "L" 1 1].get? v.toNat :=
  sorted_tiles_spec [testImg, imageNew "L" 1 1] [1, 0] (by decide)

/-! ### Lemmas about `combine_tiles` -/

/-- Row-major cell decomposition: if `y * A + x = n` with `x < A`, then
`x` and `y` are `n`'s column and row. -/
lemma cell_decomp (A x y n : Nat) (hx : x < A) (hn : y * A + x = n) :
    n % A = x ∧ n / A = y := by
  subst hn
  rw [Nat.add_comm (y * A) x, Nat.mul_comm y A]
  constructor
  · rw [Nat.add_mul_mod_self_left]
    exact Nat.mod_eq_of_lt hx
  · rw [Nat.add_mul_div_left _ _ (by omega : 0 < A), Nat.div_eq_of_lt hx,
      Nat.zero_add]

/-- Row-major cell recomposition. -/
lemma cell_recomp (A n : Nat) : n / A * A + n % A = n := by
  rw [Nat.mul_comm]
  exact Nat.div_add_mod n A

/-- The paste offset `(i % width_count) * dx` as a natural number. -/
lemma fmod_cast_mul (i A : Nat) (d : Int) (hd : 0 ≤ d) :
    ((i : Int).fmod (A : Int)) * d = (((i % A) * d.toNat : Nat) : Int) := by
  rw [Int.fmod_eq_emod _ (Int.natCast_nonneg A), ← Int.ofNat_emod]
  push_cast
  rw [Int.toNat_of_nonneg hd]

/-- The paste offset `(i // width_count) * dy` as a natural number. -/
lemma fdiv_cast_mul (i A : Nat) (d : Int) (hd : 0 ≤ d) :
    ((i : Int).fdiv (A : Int)) * d = (((i / A) * d.toNat : Nat) : Int) := by
  rw [Int.fdiv_eq_ediv _ (Int.natCast_nonneg A), ← Int.natCast_div]
  push_cast
  rw [Int.toNat_of_nonneg hd]

/-- `toNat` of a positive integer times a natural cast. -/
lemma toNat_mul_nat (d : Int) (hd : 0 ≤ d) (A : Nat) :
    (d * (A : Int)).toNat = d.toNat * A := by
  calc (d * (A : Int)).toNat = (((d.toNat * A : Nat)) : Int).toNat := by
        rw [Nat.cast_mul, Int.toNat_of_nonneg hd]
    _ = d.toNat * A := Int.toNat_ofNat _

/-- Pixels of a single paste of a `dxn × dyn` tile at the grid cell
`(a, r)`: inside the cell the tile's pixels, outside the base's. -/
lemma paste_tile_pixel (base t : PILImage) (a r dxn dyn : Nat)
    (hw : t.width = dxn) (hh : t.height = dyn)
    (hdxn : 0 < dxn) (hdyn : 0 < dyn) (p q : Nat) :
    (paste base t (((a * dxn : Nat) : Int)) (((r * dyn : Nat) : Int))).pixel p q =
      if p / dxn = a ∧ q / dyn = r then t.pixel (p % dxn) (q % dyn)
      else base.pixel p q := by
  have hdm := Nat.div_add_mod p dxn
  rw [Nat.mul_comm dxn (p / dxn)] at hdm
  have hmlt : p % dxn < dxn := Nat.mod_lt p hdxn
  have hdm' := Nat.div_add_mod q dyn
  rw [Nat.mul_comm dyn (q / dyn)] at hdm'
  have hmlt' : q % dyn < dyn := Nat.mod_lt q hdyn
  unfold paste
  dsimp only
  rw [hw, hh]
  split_ifs with hg hc hc
  · obtain ⟨h1, h2⟩ := hc
    subst h1
    subst h2
    have e1 : ((p : Int) - ((p / dxn * dxn : Nat) : Int)).toNat = p % dxn := by omega
    have e2 : ((q : Int) - ((q / dyn * dyn : Nat) : Int)).toNat = q % dyn := by omega
    rw [e1, e2]
  · exfalso
    apply hc
    obtain ⟨hg1, hg2, hg3, hg4⟩ := hg
    constructor
    · apply Nat.div_eq_of_lt_le
      · omega
      · rw [Nat.succ_mul]
        omega
    · apply Nat.div_eq_of_lt_le
      · omega
      · rw [Nat.succ_mul]
        omega
  · exfalso
    apply hg
    obtain ⟨h1, h2⟩ := hc
    subst h1
    subst h2
    refine ⟨by omega, by omega, by omega, by omega⟩
  · rfl

/-- Pixel of the fold of pastes over `enumFrom n tiles`: the unique tile
whose grid cell contains `(p, q)` if its index lies in `[n, n + length)`,
the starting image's pixel otherwise. -/
lemma foldl_paste_pixel (A : Nat) (dx dy : Int) (hdx : 0 < dx) (hdy : 0 < dy)
    (tiles : List PILImage) (n : Nat) (base : PILImage) (p q : Nat)
    (hsz : ∀ t ∈ tiles, t.width = dx.toNat ∧ t.height = dy.toNat)
    (hp : p / dx.toNat < A) :
    ((tiles.enumFrom n).foldl
        (fun img it =>
          paste img it.2 (((it.1 : Int).fmod (A : Int)) * dx)
            (((it.1 : Int).fdiv (A : Int)) * dy)) base).pixel p q =
      if q / dy.toNat * A + p / dx.toNat < n + tiles.length ∧
          n ≤ q / dy.toNat * A + p / dx.toNat then
        (tiles.get? (q / dy.toNat * A + p / dx.toNat - n)).elim 0
          (fun t => t.pixel (p % dx.toNat) (q % dy.toNat))
      else base.pixel p q := by
  revert hsz
  induction tiles generalizing n base with
  | nil =>
    intro hsz
    rw [List.enumFrom_nil, List.foldl_nil, List.length_nil, Nat.add_zero,
      if_neg (by omega)]
  | cons t ts ih =>
    intro hsz
    have hA : 0 < A := lt_of_le_of_lt (Nat.zero_le _) hp
    have hdxn : 0 < dx.toNat := by omega
    have hdyn : 0 < dy.toNat := by omega
    obtain ⟨htw, hth⟩ := hsz t (List.mem_cons_self _ _)
    have hts : ∀ u ∈ ts, u.width = dx.toNat ∧ u.height = dy.toNat :=
      fun u hu => hsz u (List.mem_cons_of_mem _ hu)
    rw [List.enumFrom_cons, List.foldl_cons, ih (n + 1) _ hts]
    by_cases hcase : q / dy.toNat * A + p / dx.toNat < n + 1 + ts.length ∧
        n + 1 ≤ q / dy.toNat * A + p / dx.toNat
    · rw [if_pos hcase, if_pos (by rw [List.length_cons]; omega)]
      have hstep : q / dy.toNat * A + p / dx.toNat - n =
          (q / dy.toNat * A + p / dx.toNat - (n + 1)) + 1 := by omega
      rw [hstep, List.get?_cons_succ]
    · rw [if_neg hcase]
      rw [fmod_cast_mul n A dx (le_of_lt hdx), fdiv_cast_mul n A dy (le_of_lt hdy)]
      rw [paste_tile_pixel base t (n % A) (n / A) dx.toNat dy.toNat htw hth
        hdxn hdyn p q]
      by_cases hn : p / dx.toNat = n % A ∧ q / dy.toNat = n / A
      · rw [if_pos hn]
        have hin : q / dy.toNat * A + p / dx.toNat = n := by
          rw [hn.1, hn.2]
          exact cell_recomp A n
        rw [if_pos (by rw [List.length_cons]; omega)]
        rw [show q / dy.toNat * A + p / dx.toNat - n = 0 by omega]
        rfl
      · rw [if_neg hn, if_neg ?_]
        rw [List.length_cons]
        rintro ⟨hlt, hge⟩
        have hin : q / dy.toNat * A + p / dx.toNat = n := by omega
        obtain ⟨e1, e2⟩ := cell_decomp A (p / dx.toNat) (q / dy.toNat) n hp hin
        exact hn ⟨e1.symm, e2.symm⟩

/-- The fold of pastes keeps the starting image's size and mode. -/
lemma foldl_paste_dims (l : List (Nat × PILImage)) (wc dxv dyv : Int)
    (base : PILImage) :
    ((l.foldl (fun img it => paste img it.2 (((it.1 : Int).fmod wc) * dxv)
        (((it.1 : Int).fdiv wc) * dyv)) base).width = base.width ∧
     (l.foldl (fun img it => paste img it.2 (((it.1 : Int).fmod wc) * dxv)
        (((it.1 : Int).fdiv wc) * dyv)) base).height = base.height ∧
     (l.foldl (fun img it => paste img it.2 (((it.1 : Int).fmod wc) * dxv)
        (((it.1 : Int).fdiv wc) * dyv)) base).mode = base.mode) := by
  induction l generalizing base with
  | nil => exact ⟨rfl, rfl, rfl⟩
  | cons hd tl ih =>
    rw [List.foldl_cons]
    exact ih _

/-- C7: `combine_tiles` on `width_count * height_count` tiles of size
`dx × dy` builds a blank `(dx * width_count) × (dy * height_count)` image in
the given mode and pastes tile `i` at pixel offset
`((i mod width_count) * dx, (i div width_count) * dy)`, re-laying the tiles
row-major: every pixel of cell `(i mod width_count, i div width_count)`
shows tile `i`'s content. -/
theorem combine_tiles_spec (tiles : List PILImage) (A B : Nat) (dx dy : Int)
    (hdx : 0 < dx) (hdy : 0 < dy)
    (hlen : tiles.length = A * B)
    (hsz : ∀ t ∈ tiles, t.width = dx.toNat ∧ t.height = dy.toNat)
    (image_mode : String) :
    (combine_tiles tiles (A : Int) (B : Int) dx dy image_mode).width =
      dx.toNat * A ∧
    (combine_tiles tiles (A : Int) (B : Int) dx dy image_mode).height =
      dy.toNat * B ∧
    (combine_tiles tiles (A : Int) (B : Int) dx dy image_mode).mode =
      image_mode ∧
    ∀ i : Nat, ∀ t, tiles.get? i = some t →
      ∀ u v : Nat, u < dx.toNat → v < dy.toNat →
        (combine_tiles tiles (A : Int) (B : Int) dx dy image_mode).pixel
            (i % A * dx.toNat + u) (i / A * dy.toNat + v) = t.pixel u v := by
  have hdims := foldl_paste_dims (tiles.enum) (A : Int) dx dy
    (imageNew image_mode (dx * (A : Int)).toNat (dy * (B : Int)).toNat)
  refine ⟨?_, ?_, ?_, ?_⟩
  · show (_ : PILImage).width = _
    rw [combine_tiles, hdims.1]
    exact toNat_mul_nat dx (le_of_lt hdx) A
  · rw [combine_tiles, hdims.2.1]
    exact toNat_mul_nat dy (le_of_lt hdy) B
  · rw [combine_tiles, hdims.2.2]
    rfl
  · intro i t hit u v hu hv
    have hilt : i < tiles.length := by
      by_contra hge
      rw [List.get?_eq_none.mpr (by omega)] at hit
      cases hit
    have hA : 0 < A := by
      rcases Nat.eq_zero_or_pos A with rfl | h
      · rw [Nat.zero_mul] at hlen
        omega
      · exact h
    have hdxn : 0 < dx.toNat := by omega
    have hdyn : 0 < dy.toNat := by omega
    have hpdiv : (i % A * dx.toNat + u) / dx.toNat = i % A := by
      apply Nat.div_eq_of_lt_le
      · omega
      · rw [Nat.succ_mul]
        omega
    have hqdiv : (i / A * dy.toNat + v) / dy.toNat = i / A := by
      apply Nat.div_eq_of_lt_le
      · omega
      · rw [Nat.succ_mul]
        omega
    have hpmod : (i % A * dx.toNat + u) % dx.toNat = u := by
      rw [Nat.mul_comm, Nat.mul_add_mod]
      exact Nat.mod_eq_of_lt hu
    have hqmod : (i / A * dy.toNat + v) % dy.toNat = v := by
      rw [Nat.mul_comm, Nat.mul_add_mod]
      exact Nat.mod_eq_of_lt hv
    have hp : (i % A * dx.toNat + u) / dx.toNat < A := by
      rw [hpdiv]
      exact Nat.mod_lt i hA
    rw [combine_tiles, List.enum_eq_enumFrom,
      foldl_paste_pixel A dx dy hdx hdy tiles 0 _ _ _ hsz hp]
    rw [hpdiv, hqdiv, hpmod, hqmod, cell_recomp A i]
    rw [if_pos (by omega), Nat.sub_zero, hit]
    rfl

/-- Four constant-colour 2×2 tiles, listed in the reversed order of the
spec's §8 concrete scenario (output cell 0 holds former tile 3, …). -/
def constImg (c : Nat) : PILImage :=
  { width := 2, height := 2, mode := "RGB", pixel := fun _ _ => c }

/-- Witness for C7: with tiles `[3, 2, 1, 0]` of a 2×2 grid, the top-left
output pixel shows former tile 3's content. -/
theorem combine_tiles_spec_witness :
    (combine_tiles [constImg 3, constImg 2, constImg 1, constImg 0]
        ((2 : Nat) : Int) ((2 : Nat) : Int) 2 2 "RGB").pixel 0 0 =
      (constImg 3).pixel 0 0 :=
  (combine_tiles_spec [constImg 3, constImg 2, constImg 1, constImg 0] 2 2 2 2
      (by decide) (by decide) rfl (by decide) "RGB").2.2.2 0 (constImg 3) rfl
    0 0 (by decide) (by decide)

/-! ### Dimension preservation and the identity round trip -/

/-- Size and mode of a `combine_tiles` result. -/
lemma combine_tiles_dims (ts : List PILImage) (wc hcnt dx dy : Int)
    (m : String) :
    (combine_tiles ts wc hcnt dx dy m).width = (dx * wc).toNat ∧
    (combine_tiles ts wc hcnt dx dy m).height = (dy * hcnt).toNat ∧
    (combine_tiles ts wc hcnt dx dy m).mode = m := by
  have hdims := foldl_paste_dims ts.enum wc dx dy
    (imageNew m (dx * wc).toNat (dy * hcnt).toNat)
  refine ⟨?_, ?_, ?_⟩
  · rw [combine_tiles, hdims.1]
    rfl
  · rw [combine_tiles, hdims.2.1]
    rfl
  · rw [combine_tiles, hdims.2.2]
    rfl

/-- C8: every successful rearrangement keeps the input image's width,
height and colour mode (only tile placement differs). -/
theorem rearrange_tiles_preserves (img : PILImage) (dx dy : Int)
    (ordering : List Int) (hdx : 0 < dx) (hdy : 0 < dy) (out : PILImage)
    (hok : rearrange_tiles img (dx, dy) ordering = RearrangeResult.ok out) :
    out.width = img.width ∧ out.height = img.height ∧ out.mode = img.mode := by
  rcases ho : valid_input ((img.width : Int), (img.height : Int)) (dx, dy)
      ordering with _ | b
  · simp [rearrange_tiles, ho] at hok
  · cases b
    · simp [rearrange_tiles, ho] at hok
    · rcases hs : sorted_tiles (split_into_tiles img dx dy) ordering with _ | ts
      · simp [rearrange_tiles, ho, hs] at hok
      · simp only [rearrange_tiles, ho, hs] at hok
        have hok := RearrangeResult.ok.inj hok
        obtain ⟨hdw, hdh, -, -⟩ :=
          (valid_input_eq_true_iff _ _ dx dy ordering hdx hdy).mp ho
        have hdims := combine_tiles_dims ts ((img.width : Int).fdiv dx)
          ((img.height : Int).fdiv dy) dx dy img.mode
        rw [← hok]
        refine ⟨?_, ?_, hdims.2.2⟩
        · rw [hdims.1, Int.fdiv_eq_ediv _ (le_of_lt hdx), Int.mul_ediv_cancel' hdw]
          exact Int.toNat_ofNat _
        · rw [hdims.2.1, Int.fdiv_eq_ediv _ (le_of_lt hdy),
            Int.mul_ediv_cancel' hdh]
          exact Int.toNat_ofNat _

/-- The image inside an `ok` result (default otherwise). -/
def okImage (r : RearrangeResult) (dflt : PILImage) : PILImage :=
  match r with
  | RearrangeResult.ok o => o
  | _ => dflt

/-- The output of the identity rearrangement of `testImg`. -/
def testOut : PILImage :=
  okImage (rearrange_tiles testImg (2, 2) [0, 1, 2, 3]) testImg

/-- Witness for C8: the identity rearrangement of the 4×4 test image keeps
its size and mode. -/
theorem rearrange_tiles_preserves_witness :
    testOut.width = testImg.width ∧ testOut.height = testImg.height ∧
      testOut.mode = testImg.mode :=
  rearrange_tiles_preserves testImg 2 2 [0, 1, 2, 3] (by decide) (by decide)
    testOut rfl

/-- Indexing a tile list by the identity ordering returns it unchanged. -/
lemma sorted_tiles_id (l : List PILImage) :
    sorted_tiles l ((List.range l.length).map Int.ofNat) = some l := by
  have hbound : ∀ x ∈ (List.range l.length).map Int.ofNat,
      0 ≤ x ∧ x < (l.length : Int) := by
    intro x hx
    simp only [List.mem_map, List.mem_range] at hx
    obtain ⟨m, hm, rfl⟩ := hx
    exact ⟨Int.ofNat_zero_le m, by rw [Int.ofNat_eq_natCast]; exact_mod_cast hm⟩
  obtain ⟨ts, hts, hlen, hget⟩ :=
    sorted_tiles_get l ((List.range l.length).map Int.ofNat) hbound
  have hlen' : ts.length = l.length := by simpa using hlen
  rw [hts]
  congr 1
  apply List.ext_get?_iff.mpr
  intro n
  by_cases hn : n < l.length
  · have ho : ((List.range l.length).map Int.ofNat).get? n =
        some (Int.ofNat n) := by
      rw [List.get?_map, List.get?_range hn]
      rfl
    rw [hget n (Int.ofNat n) ho]
    exact rfl
  · rw [List.get?_eq_none.mpr (by omega), List.get?_eq_none.mpr (by omega)]

/-- The pixel of the grid-cell crop containing `(p, q)`, read back at the
in-cell offset, is the source pixel at `(p, q)`. -/
lemma crop_cell_pixel (img : PILImage) (dx dy : Int) (hdx : 0 < dx)
    (hdy : 0 < dy) (p q : Nat) (hpw : p < img.width) (hqh : q < img.height) :
    (crop img (dx * ((p / dx.toNat : Nat) : Int))
        (dy * ((q / dy.toNat : Nat) : Int))
        (dx * ((p / dx.toNat : Nat) : Int) + dx)
        (dy * ((q / dy.toNat : Nat) : Int) + dy)).pixel
      (p % dx.toNat) (q % dy.toNat) = img.pixel p q := by
  have hdxe : dx = ((dx.toNat : Nat) : Int) := (Int.toNat_of_nonneg (le_of_lt hdx)).symm
  have hdye : dy = ((dy.toNat : Nat) : Int) := (Int.toNat_of_nonneg (le_of_lt hdy)).symm
  have hdm := Nat.div_add_mod p dx.toNat
  have hdm' := Nat.div_add_mod q dy.toNat
  have hX : dx * ((p / dx.toNat : Nat) : Int) + ((p % dx.toNat : Nat) : Int) =
      (p : Int) := by
    rw [hdxe]
    exact_mod_cast hdm
  have hY : dy * ((q / dy.toNat : Nat) : Int) + ((q % dy.toNat : Nat) : Int) =
      (q : Int) := by
    rw [hdye]
    exact_mod_cast hdm'
  unfold crop
  dsimp only
  rw [if_pos ?_]
  · rw [show dx * ((p / dx.toNat : Nat) : Int) + ((p % dx.toNat : Nat) : Int) =
        (p : Int) from hX,
      show dy * ((q / dy.toNat : Nat) : Int) + ((q % dy.toNat : Nat) : Int) =
        (q : Int) from hY, Int.toNat_ofNat, Int.toNat_ofNat]
  · rw [hX, hY]
    refine ⟨Int.natCast_nonneg p, by exact_mod_cast hpw,
      Int.natCast_nonneg q, by exact_mod_cast hqh⟩

/-- C4: on an exactly divisible image, `rearrange_tiles` with the identity
ordering `[0, 1, …, N-1]` succeeds and its output is pixel-identical to the
input image. -/
theorem rearrange_tiles_identity (img : PILImage) (dx dy : Int)
    (hdx : 0 < dx) (hdy : 0 < dy)
    (hw : dx ∣ (img.width : Int)) (hh : dy ∣ (img.height : Int)) :
    ∃ out,
      rearrange_tiles img (dx, dy)
          ((List.range ((img.width / dx.toNat) * (img.height / dy.toNat))).map
            Int.ofNat) =
        RearrangeResult.ok out ∧ ImgEq out img := by
  have hdxn : 0 < dx.toNat := by omega
  have hdyn : 0 < dy.toNat := by omega
  have hdvdw : dx.toNat ∣ img.width := by
    have h := hw
    rw [show dx = ((dx.toNat : Nat) : Int) from
      (Int.toNat_of_nonneg (le_of_lt hdx)).symm] at h
    exact_mod_cast h
  have hdvdh : dy.toNat ∣ img.height := by
    have h := hh
    rw [show dy = ((dy.toNat : Nat) : Int) from
      (Int.toNat_of_nonneg (le_of_lt hdy)).symm] at h
    exact_mod_cast h
  set cols := img.width / dx.toNat with hcols
  set rows := img.height / dy.toNat with hrows
  have hcolsInt : ((cols : Nat) : Int) = (img.width : Int) / dx := by
    rw [hcols, ← ediv_toNat img.width dx hdx,
      Int.toNat_of_nonneg (Int.ediv_nonneg (Int.natCast_nonneg _) (le_of_lt hdx))]
  have hrowsInt : ((rows : Nat) : Int) = (img.height : Int) / dy := by
    rw [hrows, ← ediv_toNat img.height dy hdy,
      Int.toNat_of_nonneg (Int.ediv_nonneg (Int.natCast_nonneg _) (le_of_lt hdy))]
  have hwtot : cols * dx.toNat = img.width := Nat.div_mul_cancel hdvdw
  have hhtot : rows * dy.toNat = img.height := Nat.div_mul_cancel hdvdh
  set idOrd := (List.range (cols * rows)).map Int.ofNat with hidOrd
  have hlenOrd : idOrd.length = cols * rows := by
    rw [hidOrd, List.length_map, List.length_range]
  have hva : valid_input ((img.width : Int), (img.height : Int)) (dx, dy)
      idOrd = some true := by
    apply (valid_input_eq_true_iff _ _ dx dy idOrd hdx hdy).mpr
    refine ⟨hw, hh, ?_, ?_⟩
    · rw [hlenOrd, Nat.cast_mul, hcolsInt, hrowsInt]
    · rw [hlenOrd, ← hidOrd]
  set tiles := split_into_tiles img dx dy with htiles
  have htlen : tiles.length = rows * cols := by
    rw [htiles, split_into_tiles_eq img dx dy hdx hdy hw hh, List.length_map,
      List.length_range, ediv_toNat img.height dy hdy,
      ediv_toNat img.width dx hdx]
  have htsz : ∀ t ∈ tiles, t.width = dx.toNat ∧ t.height = dy.toNat := by
    rw [htiles, split_into_tiles_eq img dx dy hdx hdy hw hh]
    intro t ht
    simp only [List.mem_map, List.mem_range] at ht
    obtain ⟨k, -, rfl⟩ := ht
    exact ⟨(crop_size img _ _ dx dy).1, (crop_size img _ _ dx dy).2.1⟩
  have hsorted : sorted_tiles tiles idOrd = some tiles := by
    have hlt : tiles.length = cols * rows := by rw [htlen, Nat.mul_comm]
    rw [hidOrd, ← hlt]
    exact sorted_tiles_id tiles
  have hwcInt : (img.width : Int).fdiv dx = ((cols : Nat) : Int) := by
    rw [Int.fdiv_eq_ediv _ (le_of_lt hdx), ← hcolsInt]
  have hhcInt : (img.height : Int).fdiv dy = ((rows : Nat) : Int) := by
    rw [Int.fdiv_eq_ediv _ (le_of_lt hdy), ← hrowsInt]
  refine ⟨combine_tiles tiles ((img.width : Int).fdiv dx)
      ((img.height : Int).fdiv dy) dx dy img.mode, ?_, ?_⟩
  · simp only [rearrange_tiles, hva, hsorted]
  · have hdims := combine_tiles_dims tiles ((img.width : Int).fdiv dx)
      ((img.height : Int).fdiv dy) dx dy img.mode
    have hWeq : (dx * (img.width : Int).fdiv dx).toNat = img.width := by
      rw [Int.fdiv_eq_ediv _ (le_of_lt hdx), Int.mul_ediv_cancel' hw]
      exact Int.toNat_ofNat _
    have hHeq : (dy * (img.height : Int).fdiv dy).toNat = img.height := by
      rw [Int.fdiv_eq_ediv _ (le_of_lt hdy), Int.mul_ediv_cancel' hh]
      exact Int.toNat_ofNat _
    refine ⟨by rw [hdims.1, hWeq], by rw [hdims.2.1, hHeq], hdims.2.2, ?_⟩
    intro p q hp hq
    rw [hdims.1, hWeq] at hp
    rw [hdims.2.1, hHeq] at hq
    have hpcol : p / dx.toNat < cols := by
      rw [Nat.div_lt_iff_lt_mul hdxn, hwtot]
      exact hp
    have hqrow : q / dy.toNat < rows := by
      rw [Nat.div_lt_iff_lt_mul hdyn, hhtot]
      exact hq
    have hi0lt : q / dy.toNat * cols + p / dx.toNat < tiles.length := by
      rw [htlen]
      calc q / dy.toNat * cols + p / dx.toNat
          < q / dy.toNat * cols + cols := by omega
        _ = (q / dy.toNat + 1) * cols := by ring
        _ ≤ rows * cols := Nat.mul_le_mul_right cols (by omega)
    rw [hwcInt, combine_tiles, List.enum_eq_enumFrom,
      foldl_paste_pixel cols dx dy hdx hdy tiles 0 _ p q htsz hpcol]
    have hcond : q / dy.toNat * cols + p / dx.toNat < 0 + tiles.length ∧
        0 ≤ q / dy.toNat * cols + p / dx.toNat := ⟨by omega, Nat.zero_le _⟩
    rw [if_pos hcond, Nat.sub_zero]
    have hget : tiles.get? (q / dy.toNat * cols + p / dx.toNat) =
        some (crop img (dx * ((p / dx.toNat : Nat) : Int))
          (dy * ((q / dy.toNat : Nat) : Int))
          (dx * ((p / dx.toNat : Nat) : Int) + dx)
          (dy * ((q / dy.toNat : Nat) : Int) + dy)) := by
      rw [htiles, split_into_tiles_eq img dx dy hdx hdy hw hh]
      have hi0' : q / dy.toNat * cols + p / dx.toNat <
          ((img.height : Int) / dy).toNat * ((img.width : Int) / dx).toNat := by
        rw [ediv_toNat img.height dy hdy, ediv_toNat img.width dx hdx]
        rw [← htlen]
        exact hi0lt
      rw [List.get?_map, List.get?_range hi0', Option.map_some']
      obtain ⟨e1, e2⟩ :=
        cell_decomp cols (p / dx.toNat) (q / dy.toNat) _ hpcol rfl
      rw [ediv_toNat img.width dx hdx, e1, e2]
    rw [hget]
    show (crop img _ _ _ _).pixel (p % dx.toNat) (q % dy.toNat) = img.pixel p q
    exact crop_cell_pixel img dx dy hdx hdy p q hp hq

/-- Witness for C4: the identity round trip on the 4×4 test image. -/
theorem rearrange_tiles_identity_witness :
    ∃ out,
      rearrange_tiles testImg (2, 2)
          ((List.range ((testImg.width / (2 : Int).toNat) *
            (testImg.height / (2 : Int).toNat))).map Int.ofNat) =
        RearrangeResult.ok out ∧ ImgEq out testImg :=
  rearrange_tiles_identity testImg 2 2 (by decide) (by decide) ⟨2, rfl⟩ ⟨2, rfl⟩

end Qualifier
